import Mathlib

/-!
Shallow embedding of `src/main.rs` of the `tiledir` repository: a tool that
converts a sparse grid of 4096×4096 base images into a slippy-map tile
pyramid.  Pure data (grid geometry, zoom numbering, destination paths,
skip decisions) is translated into executable Lean definitions; the image
codec primitives (decode/encode/resize) are modelled only through the data
the program inspects about them (dimensions, 8-bit-ness, per-pixel alpha).
-/

namespace Tiledir

/-- `let base_wh = 4096u32` (main.rs line 56): side of one base image. -/
def base_wh : Nat := 4096

/-- `let tile_wh = 256u32` (line 57): side of one output tile. -/
def tile_wh : Nat := 256

/-- `let tile_per_base = base_wh / tile_wh` (line 59); evaluates to 16. -/
def tile_per_base : Nat := base_wh / tile_wh

/-- `let lx = -15` (line 92): hardcoded left edge of the grid range. -/
def lx : Int := -15

/-- `let ly = -15` (line 93). -/
def ly : Int := -15

/-- `let rx = 16` (line 94): hardcoded (exclusive) right edge. -/
def rx : Int := 16

/-- `let ry = 16` (line 95). -/
def ry : Int := 16

/-- `let shrunk_res = 256` (line 115): thumbnail resolution. -/
def shrunk_res : Nat := 256

/-- `u32::try_from` on an `i64` (lines 97–98): succeeds exactly on `0 ≤ i < 2^32`. -/
def u32TryFrom (i : Int) : Option Nat :=
  if 0 ≤ i ∧ i < 2 ^ 32 then some i.toNat else none

/-- `let bw = u32::try_from(rx - lx)?` (line 97); evaluates to 31. -/
def bw : Nat := (rx - lx).toNat

/-- `let bh = u32::try_from(ry - ly)?` (line 98); evaluates to 31. -/
def bh : Nat := (ry - ly).toNat

/-- Model of a decoded `DynamicImage`: the data the program inspects about an
image is its dimensions, whether it has an 8-bit RGBA representation
(`as_rgba8()` returns `Some`), and the alpha value of each pixel.  The colour
channels and resampling internals are never consulted by the embedded logic. -/
structure Img where
  width : Nat
  height : Nat
  is8 : Bool
  alpha : Nat → Nat → Nat

/-- `is_entirely_transparent` (main.rs lines 255–259): `as_rgba8()` followed by
`pixels().all(|p| p.0[3] == 0)`, with `unwrap_or(false)` for images that have
no 8-bit RGBA representation. -/
def is_entirely_transparent (i : Img) : Bool :=
  if i.is8 then
    (List.range i.height).all fun y => (List.range i.width).all fun x => i.alpha x y == 0
  else false

/-- `DynamicImage::crop_imm(cx, cy, cw, ch)`: the view rectangle intersected
with the image bounds; the colour type (hence `is8`) is preserved and pixel
`(px, py)` of the crop is pixel `(cx + px, cy + py)` of the source. -/
def crop_imm (i : Img) (cx cy cw ch : Nat) : Img :=
  { width := min cw (i.width - cx)
    height := min ch (i.height - cy)
    is8 := i.is8
    alpha := fun px py => i.alpha (cx + px) (cy + py) }

/-- `DynamicImage::resize(w, h, Lanczos3)`: resampling is abstracted; the
model records the requested bounds as the dimensions (exact for the square
inputs this program feeds it) and preserves the colour type.  No embedded
decision ever looks at the pixels of a resized image. -/
def resize (i : Img) (w h : Nat) : Img :=
  { i with width := w, height := h }

/-- `DynamicImage::new_rgba8(side, side)` (line 154): a blank square RGBA8
canvas. -/
def allocCanvas (side : Nat) : Img :=
  { width := side, height := side, is8 := true, alpha := fun _ _ => 0 }

/-- The grid-coordinate key looked up for cell `(x, y)` of the scan rectangle:
`(i64::from(x) + lx, i64::from(y) + ly)` (lines 127 and 197). -/
def cellCoord (x y : Nat) : Int × Int :=
  ((x : Int) + lx, (y : Int) + ly)

/-- `(0..bw).flat_map(|x| (0..bh).map(move |y| (x, y)))` (lines 107–109): the
list of scan cells.  The program then shuffles this list (line 113) purely to
spread decode cost; a shuffle is a permutation, and every theorem below about
`xys` concerns membership or per-cell results, which permutations preserve. -/
def xys : List (Nat × Nat) :=
  (List.range bw).flatMap fun x => (List.range bh).map fun y => (x, y)

/-- A destination tile key: the program writes it as `out/<z>/<dx>/<dy>.avif`. -/
structure Dest where
  z : Nat
  dx : Nat
  dy : Nat
deriving DecidableEq

/-- The `(ty, tx)` loop rectangle of the fine chopper at fine depth `nz`
(lines 216–217): both indices range over `0..(tile_per_base / 2^nz)`. -/
def fineItemsAt (nz : Nat) : List (Nat × Nat) :=
  (List.range (tile_per_base / 2 ^ nz)).flatMap fun ty =>
    (List.range (tile_per_base / 2 ^ nz)).map fun tx => (ty, tx)

/-- All `(neg_zoom, ty, tx)` triples visited by the fine chopper for one base
cell: `neg_zoom` in `0..=4` (line 209), then the sub-tile rectangle. -/
def fineItems : List (Nat × Nat × Nat) :=
  (List.range 5).flatMap fun nz => (fineItemsAt nz).map fun p => (nz, p.1, p.2)

/-- Destination of fine item `(nz, ty, tx)` of cell `(x, y)` (lines 215–220):
zoom `9 - neg_zoom`, `dx = x * tiles + tx`, `dy = y * tiles + ty` where
`tiles = tile_per_base / 2^nz`. -/
def fineDest (x y nz ty tx : Nat) : Dest :=
  ⟨9 - nz, x * (tile_per_base / 2 ^ nz) + tx, y * (tile_per_base / 2 ^ nz) + ty⟩

/-- The loop body of lines 216–237 for one sub-tile of one decoded base:
`ex` is the filesystem existence test `fs::metadata(dest)` (line 221); if the
destination pre-exists nothing happens, else the crop at
`(tx * step, ty * step)` with `step = tile_wh * 2^neg_zoom` (lines 212 and
226) is taken and, unless entirely transparent, its destination is written. -/
def fineItemAction (ex : Dest → Bool) (img : Img) (x y : Nat)
    (it : Nat × Nat × Nat) : Option Dest :=
  let step := tile_wh * 2 ^ it.1
  let d := fineDest x y it.1 it.2.1 it.2.2
  if ex d then none
  else if is_entirely_transparent
      (crop_imm img (it.2.2 * step) (it.2.1 * step) step step) then none
  else some d

/-- Fine chopping of one cell (lines 196–247), as the list of destinations
actually written.  `lookup` merges `base_lookup.get` with image decoding.
The skip rules appear in source order: absent cell, entirely transparent
base, then the per-sub-tile decision of `fineItemAction`. -/
def fineCellWrites (ex : Dest → Bool) (lookup : Int × Int → Option Img)
    (x y : Nat) : List Dest :=
  match lookup (cellCoord x y) with
  | none => []
  | some img =>
    if is_entirely_transparent img then []
    else fineItems.filterMap (fineItemAction ex img x y)

/-- The whole fine phase (line 196): every scan cell is chopped. -/
def fineWritesAll (ex : Dest → Bool) (lookup : Int × Int → Option Img) : List Dest :=
  xys.flatMap fun p => fineCellWrites ex lookup p.1 p.2

/-- One work item of the parallel shrunk-thumbnail map (lines 124–144): absent
cells and entirely transparent bases yield `None`; otherwise the thumbnail is
the base resized to `shrunk_res`, keyed by the cell. -/
def shrunkEntry (lookup : Int × Int → Option Img) (x y : Nat) :
    Option ((Nat × Nat) × Img) :=
  match lookup (cellCoord x y) with
  | none => none
  | some img =>
    if is_entirely_transparent img then none
    else some ((x, y), resize img shrunk_res shrunk_res)

/-- The collected thumbnail map over a list of scan cells (the program collects
into a `HashMap`; the per-key results are what the claims are about). -/
def shrunkMap (lookup : Int × Int → Option Img) (cells : List (Nat × Nat)) :
    List ((Nat × Nat) × Img) :=
  cells.filterMap fun p => shrunkEntry lookup p.1 p.2

/-- Point update of a lookup table, used to state that cells outside the scan
rectangle cannot influence the run. -/
def updateLookup (lookup : Int × Int → Option Img) (c : Int × Int)
    (v : Option Img) : Int × Int → Option Img :=
  fun c' => if c' = c then v else lookup c'

/-- All destinations written by the coarse slicer (lines 175–190): for each
zoom in `0..=4` the canvas is cut into `2^zoom × 2^zoom` quadrants and every
quadrant is saved to `out/<zoom>/<x>/<y>.avif`, with no existence check. -/
def coarseDests : List Dest :=
  (List.range 5).flatMap fun zoom =>
    (List.range (2 ^ zoom)).flatMap fun y =>
      (List.range (2 ^ zoom)).map fun x => ⟨zoom, x, y⟩

/-- Absolute zoom written by the coarse slicer at phase-local depth `d`: the
loop variable `zoom` itself (line 175). -/
def coarseZoomOf (d : Nat) : Nat := d

/-- Absolute zoom written by the fine chopper at phase-local depth `d`:
`let zoom = 9 - neg_zoom` (line 215). -/
def fineZoomOf (d : Nat) : Nat := 9 - d

/-- Failure modes of the stretch of `main` between the bounding box and the
canvas allocation: `u32::try_from` failure (lines 97–98, the `?` operator) and
the `assert_eq!(bw, bh)` panic (line 146). -/
inductive PipeErr
  | intConversion
  | nonSquareGrid
deriving DecidableEq

/-- Lines 97–154 of `main`, parameterised by the bounding box: convert the
box edges to `u32` widths, then `assert_eq!(bw, bh)` (line 146), and only
after that assertion allocate the `(bw + 1) * shrunk_res` square canvas
(lines 147 and 154).  In the error cases no canvas value exists. -/
def compositePhase (lx' ly' rx' ry' : Int) : Except PipeErr Img :=
  match u32TryFrom (rx' - lx'), u32TryFrom (ry' - ly') with
  | some w, some h =>
    if w = h then .ok (allocCanvas ((w + 1) * shrunk_res))
    else .error .nonSquareGrid
  | _, _ => .error .intConversion

/-- A bounding box over grid coordinates. -/
structure BBox where
  minX : Int
  minY : Int
  maxX : Int
  maxY : Int
deriving DecidableEq

/-- The bounding box the program actually uses (lines 92–95): four hardcoded
constants.  The min/max scan over the discovered coordinate list (lines
88–91) is commented out in the source, so the result does not depend on the
argument at all. -/
def boundingBox (bases : List (Int × Int)) : BBox :=
  ⟨lx, ly, rx, ry⟩

/-- Modelled from the spec: the auto bounding-box mode, which `main.rs` keeps
only as commented-out code (lines 88–91), "derives minX, minY, maxX, maxY as
the minimum and maximum over all parsed coordinates" and has no value on an
empty input. -/
def autoBoundingBox : List (Int × Int) → Option BBox
  | [] => none
  | (x, y) :: rest =>
    some (rest.foldl
      (fun b p => ⟨min b.minX p.1, min b.minY p.2, max b.maxX p.1, max b.maxY p.2⟩)
      ⟨x, y, x, y⟩)

/-- Decimal digit to its ASCII character. -/
def digitChar (d : Nat) : Char := Char.ofNat (48 + d)

/-- Canonical decimal rendering of a natural number, as Rust's `format!`
produces it inside `format!("out/\x7bzoom\x7d/\x7bx\x7d/\x7by\x7d.avif")`:
no padding, most significant digit first, and `0` renders as `"0"`. -/
def decChars (n : Nat) : List Char :=
  if n = 0 then ['0'] else ((Nat.digits 10 n).map digitChar).reverse

/-- Decimal decoder, a left inverse of `decChars` used to prove it injective. -/
def undecChars (s : List Char) : Nat :=
  Nat.ofDigits 10 ((s.map fun c => c.toNat - 48).reverse)

/-- The character list of the destination path `out/<z>/<dx>/<dy>.avif`
(lines 181 and 220 build exactly this string). -/
def destPathChars (d : Dest) : List Char :=
  "out/".toList ++ decChars d.z ++ '/' ::
    (decChars d.dx ++ '/' :: (decChars d.dy ++ ".avif".toList))

/-- The destination path as a string. -/
def destPath (d : Dest) : String := ⟨destPathChars d⟩

/-- One independent unit of output work of the whole run: a coarse quadrant
`(zoom, quadrant x, quadrant y)` of lines 175–190, or a fine sub-tile
`(cell x, cell y, neg_zoom, ty, tx)` of lines 196–239. -/
inductive WorkItem
  | coarse (z qx qy : Nat)
  | fine (cx cy nz ty tx : Nat)
deriving DecidableEq

/-- The index ranges the program's loops actually produce: coarse quadrants
range over `0..2^zoom` for zoom in `0..=4`; fine items range over the scan
cells `0..bw × 0..bh` and the sub-tile rectangle of their depth. -/
def WorkItem.valid : WorkItem → Prop
  | .coarse z qx qy => z < 5 ∧ qx < 2 ^ z ∧ qy < 2 ^ z
  | .fine cx cy nz ty tx =>
    cx < bw ∧ cy < bh ∧ nz < 5 ∧
      ty < tile_per_base / 2 ^ nz ∧ tx < tile_per_base / 2 ^ nz

/-- The destination a work item writes to. -/
def WorkItem.dest : WorkItem → Dest
  | .coarse z qx qy => ⟨z, qx, qy⟩
  | .fine cx cy nz ty tx => fineDest cx cy nz ty tx

/-! Helper lemmas. -/

/-- `u32::try_from` succeeds on every in-range integer. -/
theorem u32TryFrom_pos {i : Int} (h0 : 0 ≤ i) (h32 : i < 2 ^ 32) :
    u32TryFrom i = some i.toNat :=
  if_pos ⟨h0, h32⟩

/-- The transparency test in pointwise form. -/
theorem transparent_iff (i : Img) :
    is_entirely_transparent i = true ↔
      i.is8 = true ∧ ∀ px < i.width, ∀ py < i.height, i.alpha px py = 0 := by
  rcases h8 : i.is8 with _ | _
  · simp [is_entirely_transparent, h8]
  · simp only [is_entirely_transparent, h8, if_true, List.all_eq_true,
      List.mem_range, beq_iff_eq, true_and]
    exact ⟨fun h px hx py hy => h py hy px hx,
      fun h py hy px hx => h px hx py hy⟩

/-- An image with no 8-bit RGBA representation never tests transparent. -/
theorem not_transparent_of_not8 {i : Img} (h : i.is8 = false) :
    is_entirely_transparent i = false := by
  simp [is_entirely_transparent, h]

/-- Membership in the scan-cell list. -/
theorem mem_xys {p : Nat × Nat} : p ∈ xys ↔ p.1 < bw ∧ p.2 < bh := by
  obtain ⟨x, y⟩ := p
  simp [xys, List.mem_flatMap, List.mem_map, List.mem_range]

/-- Membership in the per-depth sub-tile rectangle gives the loop bounds. -/
theorem mem_fineItemsAt {nz : Nat} {p : Nat × Nat} :
    p ∈ fineItemsAt nz ↔
      p.1 < tile_per_base / 2 ^ nz ∧ p.2 < tile_per_base / 2 ^ nz := by
  obtain ⟨a, b⟩ := p
  constructor
  · intro h
    simp only [fineItemsAt, List.mem_flatMap, List.mem_map, List.mem_range] at h
    obtain ⟨ty, hty, tx, htx, heq⟩ := h
    rw [Prod.mk.injEq] at heq
    obtain ⟨rfl, rfl⟩ := heq
    exact ⟨hty, htx⟩
  · rintro ⟨ha, hb⟩
    simp only [fineItemsAt, List.mem_flatMap, List.mem_map, List.mem_range]
    exact ⟨a, ha, b, hb, rfl⟩

/-- Membership in the fine-item list gives the loop bounds. -/
theorem mem_fineItems {it : Nat × Nat × Nat} :
    it ∈ fineItems ↔
      it.1 < 5 ∧ it.2.1 < tile_per_base / 2 ^ it.1 ∧
        it.2.2 < tile_per_base / 2 ^ it.1 := by
  obtain ⟨nz, ty, tx⟩ := it
  constructor
  · intro h
    simp only [fineItems, List.mem_flatMap, List.mem_map, List.mem_range] at h
    obtain ⟨nz', hnz', ⟨a, b⟩, hp, heq⟩ := h
    rw [Prod.mk.injEq, Prod.mk.injEq] at heq
    obtain ⟨rfl, rfl, rfl⟩ := heq
    exact ⟨hnz', (mem_fineItemsAt.mp hp).1, (mem_fineItemsAt.mp hp).2⟩
  · rintro ⟨hnz, hty, htx⟩
    simp only [fineItems, List.mem_flatMap, List.mem_map, List.mem_range]
    exact ⟨nz, hnz, (ty, tx), mem_fineItemsAt.mpr ⟨hty, htx⟩, rfl⟩

/-- Two fine items of the same cell with in-range indices and equal
destinations are the same item. -/
theorem fineDest_inj_cell {x y nz ty tx nz' ty' tx' : Nat}
    (hnz : nz < 5) (hty : ty < tile_per_base / 2 ^ nz)
    (htx : tx < tile_per_base / 2 ^ nz)
    (hnz' : nz' < 5) (hty' : ty' < tile_per_base / 2 ^ nz')
    (htx' : tx' < tile_per_base / 2 ^ nz')
    (h : fineDest x y nz ty tx = fineDest x y nz' ty' tx') :
    nz = nz' ∧ ty = ty' ∧ tx = tx' := by
  simp only [fineDest, Dest.mk.injEq] at h
  obtain ⟨hz, hdx, hdy⟩ := h
  have hnzeq : nz = nz' := by omega
  subst hnzeq
  omega

/-! Claim theorems. -/

/-- C1 counterexample.  The claim says the composite canvas side equals
`w * thumbnailResolution` with `w = maxX - minX`.  At the program's own
bounding box `w = rx - lx = 31`, yet the allocated canvas is 8192 pixels a
side, not `31 * 256 = 7936`: `main.rs` line 147 computes `(bw + 1) *
shrunk_res`. -/
theorem c1_counterexample :
    (compositePhase lx ly rx ry).map Img.width = .ok 8192 ∧
    (rx - lx).toNat * shrunk_res = 7936 ∧
    (compositePhase lx ly rx ry).map Img.width ≠
      .ok ((rx - lx).toNat * shrunk_res) := by
  refine ⟨rfl, rfl, fun h => ?_⟩
  have h' : (8192 : Nat) = 7936 := Except.ok.inj h
  exact absurd h' (by decide)

/-- C1 as amended: for a bounding box whose width `w = maxX - minX` is
representable and equals its height, the composite phase allocates a square
canvas of side `(w + 1) * shrunk_res` (not `w * shrunk_res`), and every
thumbnail offset `cx * shrunk_res` with `cx < w` lies inside that canvas. -/
theorem c1_canvas_side (lx' ly' rx' ry' : Int) (cx : Nat)
    (h0 : 0 ≤ rx' - lx') (h32 : rx' - lx' < 2 ^ 32)
    (hsq : rx' - lx' = ry' - ly')
    (hcx : cx < (rx' - lx').toNat) :
    compositePhase lx' ly' rx' ry' =
      .ok (allocCanvas (((rx' - lx').toNat + 1) * shrunk_res)) ∧
    (allocCanvas (((rx' - lx').toNat + 1) * shrunk_res)).width =
      (allocCanvas (((rx' - lx').toNat + 1) * shrunk_res)).height ∧
    cx * shrunk_res + shrunk_res ≤ ((rx' - lx').toNat + 1) * shrunk_res := by
  refine ⟨?_, rfl, ?_⟩
  · unfold compositePhase
    rw [u32TryFrom_pos h0 h32, u32TryFrom_pos (hsq ▸ h0) (hsq ▸ h32),
      show (ry' - ly').toNat = (rx' - lx').toNat by rw [hsq]]
    exact if_pos rfl
  · simp only [shrunk_res]
    omega

/-- C1 witness: the amended statement at the program's own constants. -/
theorem c1_canvas_side_witness :
    compositePhase lx ly rx ry =
      .ok (allocCanvas (((rx - lx).toNat + 1) * shrunk_res)) ∧
    (allocCanvas (((rx - lx).toNat + 1) * shrunk_res)).width =
      (allocCanvas (((rx - lx).toNat + 1) * shrunk_res)).height ∧
    0 * shrunk_res + shrunk_res ≤ ((rx - lx).toNat + 1) * shrunk_res :=
  c1_canvas_side lx ly rx ry 0 (by decide) (by decide) (by decide) (by decide)

/-- C2 counterexample.  The claim says an auto mode deriving min/max over the
parsed coordinates is available; but for the discovery list containing only
coordinate `(100, 200)` the program's bounding box is still the hardcoded
`(-15, -15, 16, 16)`, not the min/max box `(100, 200, 100, 200)`: lines 88–91
holding the scan are commented out. -/
theorem c2_counterexample :
    boundingBox [((100 : Int), (200 : Int))] = ⟨-15, -15, 16, 16⟩ ∧
    autoBoundingBox [((100 : Int), (200 : Int))] = some ⟨100, 200, 100, 200⟩ ∧
    boundingBox [((100 : Int), (200 : Int))] ≠ ⟨100, 200, 100, 200⟩ := by
  refine ⟨rfl, rfl, ?_⟩
  decide

/-- C2 as amended: the program supports only one bounding-box behaviour, the
fixed hardcoded range `minX = minY = -15`, `maxX = maxY = 16`; the result
never depends on the discovered coordinates, so no auto mode is selectable. -/
theorem c2_fixed_box (bases : List (Int × Int)) :
    boundingBox bases = ⟨-15, -15, 16, 16⟩ ∧
    boundingBox bases = boundingBox [] :=
  ⟨rfl, rfl⟩

/-- C8: whenever the bounding-box width differs from its height (both
representable as `u32`), the composite phase stops with the non-square-grid
failure — the `assert_eq!(bw, bh)` of line 146 — and no canvas value is ever
produced, since allocation happens only in the `ok` branch after the
assertion. -/
theorem c8_nonsquare_fails (lx' ly' rx' ry' : Int)
    (h0 : 0 ≤ rx' - lx') (h32 : rx' - lx' < 2 ^ 32)
    (h0' : 0 ≤ ry' - ly') (h32' : ry' - ly' < 2 ^ 32)
    (hne : rx' - lx' ≠ ry' - ly') :
    compositePhase lx' ly' rx' ry' = .error .nonSquareGrid := by
  unfold compositePhase
  rw [u32TryFrom_pos h0 h32, u32TryFrom_pos h0' h32']
  exact if_neg (by omega)

/-- C8 witness: a 1-wide, 2-high bounding box is rejected. -/
theorem c8_nonsquare_fails_witness :
    compositePhase 0 0 1 2 = .error .nonSquareGrid :=
  c8_nonsquare_fails 0 0 1 2 (by decide) (by decide) (by decide) (by decide)
    (by decide)

/-- The per-item decision with its local bindings expanded. -/
theorem fineItemAction_eq (ex : Dest → Bool) (img : Img) (x y : Nat)
    (it : Nat × Nat × Nat) :
    fineItemAction ex img x y it =
      if ex (fineDest x y it.1 it.2.1 it.2.2) then none
      else if is_entirely_transparent (crop_imm img
          (it.2.2 * (tile_wh * 2 ^ it.1)) (it.2.1 * (tile_wh * 2 ^ it.1))
          (tile_wh * 2 ^ it.1) (tile_wh * 2 ^ it.1)) then none
      else some (fineDest x y it.1 it.2.1 it.2.2) := rfl

/-- What a produced per-item write tells us: it is the item's own
destination, that destination did not pre-exist, and its crop did not test
transparent. -/
theorem fineItemAction_some {ex : Dest → Bool} {img : Img} {x y : Nat}
    {it : Nat × Nat × Nat} {d : Dest}
    (h : fineItemAction ex img x y it = some d) :
    d = fineDest x y it.1 it.2.1 it.2.2 ∧ ex d = false ∧
      is_entirely_transparent (crop_imm img
        (it.2.2 * (tile_wh * 2 ^ it.1)) (it.2.1 * (tile_wh * 2 ^ it.1))
        (tile_wh * 2 ^ it.1) (tile_wh * 2 ^ it.1)) = false := by
  rw [fineItemAction_eq] at h
  by_cases h1 : ex (fineDest x y it.1 it.2.1 it.2.2) = true
  · rw [if_pos h1] at h
    exact absurd h (by simp)
  · rw [if_neg h1] at h
    by_cases h2 : is_entirely_transparent (crop_imm img
        (it.2.2 * (tile_wh * 2 ^ it.1)) (it.2.1 * (tile_wh * 2 ^ it.1))
        (tile_wh * 2 ^ it.1) (tile_wh * 2 ^ it.1)) = true
    · rw [if_pos h2] at h
      exact absurd h (by simp)
    · rw [if_neg h2] at h
      have hd := Option.some.inj h
      subst hd
      exact ⟨rfl, by rwa [Bool.not_eq_true] at h1,
        by rwa [Bool.not_eq_true] at h2⟩

/-- Equation lemma: chopping a cell with no discovered base writes nothing. -/
theorem fineCellWrites_none {ex : Dest → Bool} {lookup : Int × Int → Option Img}
    {x y : Nat} (hl : lookup (cellCoord x y) = none) :
    fineCellWrites ex lookup x y = [] := by
  unfold fineCellWrites
  rw [hl]

/-- Equation lemma: chopping a cell whose base decodes to `img`. -/
theorem fineCellWrites_some {ex : Dest → Bool} {lookup : Int × Int → Option Img}
    {x y : Nat} {img : Img} (hl : lookup (cellCoord x y) = some img) :
    fineCellWrites ex lookup x y =
      if is_entirely_transparent img then []
      else fineItems.filterMap (fineItemAction ex img x y) := by
  unfold fineCellWrites
  rw [hl]

/-- Equation lemma: the thumbnail decision for an absent cell. -/
theorem shrunkEntry_none {lookup : Int × Int → Option Img} {x y : Nat}
    (hl : lookup (cellCoord x y) = none) : shrunkEntry lookup x y = none := by
  unfold shrunkEntry
  rw [hl]

/-- Equation lemma: the thumbnail decision for an occupied cell. -/
theorem shrunkEntry_some {lookup : Int × Int → Option Img} {x y : Nat}
    {img : Img} (hl : lookup (cellCoord x y) = some img) :
    shrunkEntry lookup x y =
      if is_entirely_transparent img then none
      else some ((x, y), resize img shrunk_res shrunk_res) := by
  unfold shrunkEntry
  rw [hl]

/-- Membership in the per-cell write list, characterised. -/
theorem mem_fineCellWrites {ex : Dest → Bool} {lookup : Int × Int → Option Img}
    {x y : Nat} {d : Dest} :
    d ∈ fineCellWrites ex lookup x y ↔
      ∃ img, lookup (cellCoord x y) = some img ∧
        is_entirely_transparent img = false ∧
        ∃ it ∈ fineItems, fineItemAction ex img x y it = some d := by
  cases hl : lookup (cellCoord x y) with
  | none =>
    rw [fineCellWrites_none hl]
    simp [hl]
  | some img =>
    rw [fineCellWrites_some hl]
    rcases ht : is_entirely_transparent img with _ | _
    · rw [if_neg (by simp [ht])]
      simp [List.mem_filterMap, hl, ht]
    · rw [if_pos (by simp [ht])]
      simp [hl, ht]

/-- C4: a fine destination that already exists on disk is skipped — it never
appears in the write list of its cell — and a rerun in which every
destination pre-exists (`fs::metadata` succeeding everywhere, the
already-complete output tree) writes nothing at all. -/
theorem c4_skip_existing (ex : Dest → Bool) (lookup : Int × Int → Option Img)
    (x y nz ty tx : Nat)
    (hit : (nz, ty, tx) ∈ fineItems)
    (hex : ex (fineDest x y nz ty tx) = true) :
    fineDest x y nz ty tx ∉ fineCellWrites ex lookup x y ∧
    fineWritesAll (fun _ => true) lookup = [] := by
  constructor
  · intro hmem
    rw [mem_fineCellWrites] at hmem
    obtain ⟨img, _, _, it, _, hact⟩ := hmem
    obtain ⟨_, hfalse, _⟩ := fineItemAction_some hact
    rw [hex] at hfalse
    exact absurd hfalse (by simp)
  · unfold fineWritesAll
    rw [List.flatMap_eq_nil_iff]
    intro p _
    cases hl : lookup (cellCoord p.1 p.2) with
    | none => exact fineCellWrites_none hl
    | some img =>
      rw [fineCellWrites_some hl]
      by_cases ht : is_entirely_transparent img = true
      · rw [if_pos ht]
      · rw [if_neg ht]
        rw [List.filterMap_eq_nil_iff]
        intro it _
        rfl

/-- C4 witness: the empty-lookup, everything-exists instance. -/
theorem c4_skip_existing_witness :
    fineDest 0 0 0 0 0 ∉ fineCellWrites (fun _ => true) (fun _ => none) 0 0 ∧
    fineWritesAll (fun _ => true) (fun _ => none) = [] :=
  c4_skip_existing (fun _ => true) (fun _ => none) 0 0 0 0 0 (by decide) rfl

/-- C9: an image with no 8-bit RGBA representation is never treated as
transparent, whatever its alpha content: the transparency test answers
`false`, the composite builder keeps its thumbnail, and the fine chopper
processes every sub-tile of it — the write list is exactly the
non-pre-existing candidates, with no transparency skip at all. -/
theorem c9_non8bit_processed (ex : Dest → Bool) (lookup : Int × Int → Option Img)
    (x y : Nat) (img : Img)
    (hl : lookup (cellCoord x y) = some img)
    (h8 : img.is8 = false) :
    is_entirely_transparent img = false ∧
    shrunkEntry lookup x y = some ((x, y), resize img shrunk_res shrunk_res) ∧
    fineCellWrites ex lookup x y = fineItems.filterMap fun it =>
      if ex (fineDest x y it.1 it.2.1 it.2.2) then none
      else some (fineDest x y it.1 it.2.1 it.2.2) := by
  have hnt : is_entirely_transparent img = false := not_transparent_of_not8 h8
  refine ⟨hnt, ?_, ?_⟩
  · rw [shrunkEntry_some hl, if_neg (by simp [hnt])]
  · rw [fineCellWrites_some hl, if_neg (by simp [hnt])]
    apply List.filterMap_congr
    intro it _
    rw [fineItemAction_eq]
    have hc : is_entirely_transparent (crop_imm img
        (it.2.2 * (tile_wh * 2 ^ it.1)) (it.2.1 * (tile_wh * 2 ^ it.1))
        (tile_wh * 2 ^ it.1) (tile_wh * 2 ^ it.1)) = false :=
      not_transparent_of_not8 (by simp [crop_imm, h8])
    rw [hc]
    simp

/-- C9 witness: a non-8-bit, fully zero-alpha image at cell `(0, 0)`. -/
theorem c9_non8bit_processed_witness :
    is_entirely_transparent ⟨4, 4, false, fun _ _ => 0⟩ = false ∧
    shrunkEntry
      (fun c => if c = cellCoord 0 0 then some ⟨4, 4, false, fun _ _ => 0⟩ else none)
      0 0 =
      some ((0, 0), resize ⟨4, 4, false, fun _ _ => 0⟩ shrunk_res shrunk_res) ∧
    fineCellWrites (fun _ => false)
      (fun c => if c = cellCoord 0 0 then some ⟨4, 4, false, fun _ _ => 0⟩ else none)
      0 0 = fineItems.filterMap fun it =>
        if (fun _ => false) (fineDest 0 0 it.1 it.2.1 it.2.2) then none
        else some (fineDest 0 0 it.1 it.2.1 it.2.2) :=
  c9_non8bit_processed (fun _ => false)
    (fun c => if c = cellCoord 0 0 then some ⟨4, 4, false, fun _ _ => 0⟩ else none)
    0 0 ⟨4, 4, false, fun _ _ => 0⟩ (by simp) rfl

/-- C10: a coordinate outside the square `[-15, 15] × [-15, 15]` is never a
scan cell's key, and the whole run — the thumbnail map and the fine write
list — is unchanged by whatever the discovery map holds at that coordinate:
such a base tile is silently ignored by both phases. -/
theorem c10_out_of_range (c : Int × Int) (lookup : Int × Int → Option Img)
    (v : Option Img) (ex : Dest → Bool)
    (h : ¬(-15 ≤ c.1 ∧ c.1 ≤ 15 ∧ -15 ≤ c.2 ∧ c.2 ≤ 15)) :
    c ∉ xys.map (fun p => cellCoord p.1 p.2) ∧
    shrunkMap (updateLookup lookup c v) xys = shrunkMap lookup xys ∧
    fineWritesAll ex (updateLookup lookup c v) = fineWritesAll ex lookup := by
  have hne : ∀ p ∈ xys, cellCoord p.1 p.2 ≠ c := by
    intro p hp hc
    have hb := mem_xys.mp hp
    have hbw : bw = 31 := rfl
    have hbh : bh = 31 := rfl
    apply h
    rw [← hc]
    unfold cellCoord lx ly
    constructor
    · omega
    constructor
    · omega
    constructor
    · omega
    · omega
  refine ⟨?_, ?_, ?_⟩
  · intro hmem
    simp only [List.mem_map] at hmem
    obtain ⟨p, hp, hpc⟩ := hmem
    exact hne p hp hpc
  · unfold shrunkMap
    apply List.filterMap_congr
    intro p hp
    have hupd : updateLookup lookup c v (cellCoord p.1 p.2) =
        lookup (cellCoord p.1 p.2) := if_neg (hne p hp)
    unfold shrunkEntry
    rw [hupd]
  · unfold fineWritesAll
    apply List.flatMap_congr
    intro p hp
    have hupd : updateLookup lookup c v (cellCoord p.1 p.2) =
        lookup (cellCoord p.1 p.2) := if_neg (hne p hp)
    unfold fineCellWrites
    rw [hupd]

set_option maxRecDepth 40000 in
/-- C3: the coarse slicer writes absolute zooms `coarseZoomOf d = d` and the
fine chopper writes `fineZoomOf d = 9 - d`; over the shared depth range
`0..=4` each mapping is strictly monotone (hence injective), the two zoom
sets never coincide, and together they cover exactly the contiguous range
`0..=9`.  The last two conjuncts tie the mappings to the actual work lists:
the coarse destinations carry exactly the coarse zooms, and every fine
destination carries the fine zoom of its depth. -/
theorem c3_zoom_mapping :
    List.Pairwise (· < ·) ((List.range 5).map coarseZoomOf) ∧
    List.Pairwise (fun a b => b < a) ((List.range 5).map fineZoomOf) ∧
    ((Finset.range 5).image coarseZoomOf ∩ (Finset.range 5).image fineZoomOf) =
      ∅ ∧
    ((Finset.range 5).image coarseZoomOf ∪ (Finset.range 5).image fineZoomOf) =
      Finset.Icc 0 9 ∧
    (coarseDests.map Dest.z).toFinset = (Finset.range 5).image coarseZoomOf ∧
    ∀ x y nz ty tx, (fineDest x y nz ty tx).z = fineZoomOf nz :=
  ⟨by decide, by decide, by decide, by decide, by decide,
    fun _ _ _ _ _ => rfl⟩

set_option maxRecDepth 40000 in
/-- C5 counterexample.  The claim quantifies over every base "whose full
decoded image has alpha channel zero at every pixel".  A 16-bit image (no
8-bit RGBA representation, `is8 = false`) with all-zero alpha is such a base,
yet the fine chopper emits tiles for it: `is_entirely_transparent` answers
`false` for any non-8-bit image, so the transparency skips never fire. -/
theorem c5_counterexample :
    (Img.mk 4 4 false fun _ _ => 0).alpha = (fun _ _ => 0) ∧
    fineCellWrites (fun _ => false)
      (fun c => if c = cellCoord 0 0 then some (Img.mk 4 4 false fun _ _ => 0)
        else none) 0 0 ≠ [] := by
  refine ⟨rfl, ?_⟩
  decide

/-- C5 as amended, restricted as the code is to 8-bit imagery: a base cell
whose decoded image has an 8-bit RGBA representation and zero alpha at every
pixel produces no fine tiles at all; and a sub-tile whose crop tests entirely
transparent is never written for its cell, whether or not the whole base is
transparent. -/
theorem c5_transparent_skips (ex : Dest → Bool)
    (lookup : Int × Int → Option Img) (x y x' y' : Nat) (img img' : Img)
    (nz ty tx : Nat)
    (hl : lookup (cellCoord x y) = some img)
    (h8 : img.is8 = true)
    (hzero : ∀ px < img.width, ∀ py < img.height, img.alpha px py = 0)
    (hl' : lookup (cellCoord x' y') = some img')
    (hit : (nz, ty, tx) ∈ fineItems)
    (hcrop : is_entirely_transparent (crop_imm img' (tx * (tile_wh * 2 ^ nz))
      (ty * (tile_wh * 2 ^ nz)) (tile_wh * 2 ^ nz) (tile_wh * 2 ^ nz)) = true) :
    fineCellWrites ex lookup x y = [] ∧
    fineDest x' y' nz ty tx ∉ fineCellWrites ex lookup x' y' := by
  constructor
  · rw [fineCellWrites_some hl,
      if_pos ((transparent_iff img).mpr ⟨h8, hzero⟩)]
  · intro hmem
    rw [mem_fineCellWrites] at hmem
    obtain ⟨img2, hl2, hnt2, it, hit2, hact⟩ := hmem
    rw [hl'] at hl2
    have himg : img2 = img' := (Option.some.inj hl2).symm
    subst himg
    obtain ⟨hd, _, hcropit⟩ := fineItemAction_some hact
    obtain ⟨hnz1, hty1, htx1⟩ := mem_fineItems.mp hit
    obtain ⟨hnz2, hty2, htx2⟩ := mem_fineItems.mp hit2
    obtain ⟨e1, e2, e3⟩ :=
      fineDest_inj_cell hnz1 hty1 htx1 hnz2 hty2 htx2 hd
    rw [← e1, ← e2, ← e3] at hcropit
    rw [hcrop] at hcropit
    exact absurd hcropit (by simp)

/-- C5 witness: a fully transparent 2×2 8-bit base at cell `(0, 0)`; the
same image also serves as the crop-transparent case. -/
theorem c5_transparent_skips_witness :
    fineCellWrites (fun _ => false)
      (fun c => if c = cellCoord 0 0 then some (Img.mk 2 2 true fun _ _ => 0)
        else none) 0 0 = [] ∧
    fineDest 0 0 0 0 0 ∉ fineCellWrites (fun _ => false)
      (fun c => if c = cellCoord 0 0 then some (Img.mk 2 2 true fun _ _ => 0)
        else none) 0 0 :=
  c5_transparent_skips (fun _ => false)
    (fun c => if c = cellCoord 0 0 then some (Img.mk 2 2 true fun _ _ => 0)
      else none)
    0 0 0 0 (Img.mk 2 2 true fun _ _ => 0) (Img.mk 2 2 true fun _ _ => 0)
    0 0 0 (by simp) rfl (by decide) (by simp) (by decide) (by decide)

set_option maxRecDepth 40000 in
/-- C6: for an occupied, non-transparent base cell at fine depth `nz`, the
chopper considers exactly `(tile_per_base / 2^nz)^2` candidates — the
`(ty, tx)` rectangle has that many entries and membership is exactly the
`subTilesPerSide` bound — each candidate's destination is
`(9 - nz, x * subTilesPerSide + tx, y * subTilesPerSide + ty)`, its crop
step is `tile_wh * 2^nz`, and the cell's writes are these candidates run
through the per-item decision. -/
theorem c6_fine_candidates (ex : Dest → Bool) (lookup : Int × Int → Option Img)
    (x y : Nat) (img : Img) (nz ty tx : Nat)
    (hl : lookup (cellCoord x y) = some img)
    (hnt : is_entirely_transparent img = false)
    (hnz : nz < 5) :
    (fineItemsAt nz).length = (tile_per_base / 2 ^ nz) ^ 2 ∧
    ((ty, tx) ∈ fineItemsAt nz ↔
      ty < tile_per_base / 2 ^ nz ∧ tx < tile_per_base / 2 ^ nz) ∧
    fineDest x y nz ty tx =
      ⟨9 - nz, x * (tile_per_base / 2 ^ nz) + tx,
        y * (tile_per_base / 2 ^ nz) + ty⟩ ∧
    fineItemAction ex img x y (nz, ty, tx) =
      (if ex (fineDest x y nz ty tx) then none
       else if is_entirely_transparent (crop_imm img (tx * (tile_wh * 2 ^ nz))
           (ty * (tile_wh * 2 ^ nz)) (tile_wh * 2 ^ nz) (tile_wh * 2 ^ nz))
         then none
       else some (fineDest x y nz ty tx)) ∧
    fineCellWrites ex lookup x y =
      fineItems.filterMap (fineItemAction ex img x y) := by
  refine ⟨?_, mem_fineItemsAt, rfl, rfl, ?_⟩
  · interval_cases nz <;> rfl
  · rw [fineCellWrites_some hl, if_neg (by simp [hnt])]

/-- C6 witness: an opaque 2×2 8-bit base at cell `(0, 0)`, depth 0, item
`(0, 0)`. -/
theorem c6_fine_candidates_witness :
    (fineItemsAt 0).length = (tile_per_base / 2 ^ 0) ^ 2 ∧
    ((0, 0) ∈ fineItemsAt 0 ↔
      0 < tile_per_base / 2 ^ 0 ∧ 0 < tile_per_base / 2 ^ 0) ∧
    fineDest 0 0 0 0 0 =
      ⟨9 - 0, 0 * (tile_per_base / 2 ^ 0) + 0, 0 * (tile_per_base / 2 ^ 0) + 0⟩ ∧
    fineItemAction (fun _ => false) (Img.mk 2 2 true fun _ _ => 1) 0 0 (0, 0, 0) =
      (if (fun _ => false) (fineDest 0 0 0 0 0) then none
       else if is_entirely_transparent
           (crop_imm (Img.mk 2 2 true fun _ _ => 1) (0 * (tile_wh * 2 ^ 0))
             (0 * (tile_wh * 2 ^ 0)) (tile_wh * 2 ^ 0) (tile_wh * 2 ^ 0))
         then none
       else some (fineDest 0 0 0 0 0)) ∧
    fineCellWrites (fun _ => false)
      (fun c => if c = cellCoord 0 0 then some (Img.mk 2 2 true fun _ _ => 1)
        else none) 0 0 =
      fineItems.filterMap
        (fineItemAction (fun _ => false) (Img.mk 2 2 true fun _ _ => 1) 0 0) :=
  c6_fine_candidates (fun _ => false)
    (fun c => if c = cellCoord 0 0 then some (Img.mk 2 2 true fun _ _ => 1)
      else none)
    0 0 (Img.mk 2 2 true fun _ _ => 1) 0 0 0 (by simp) (by decide) (by decide)

/-- A decimal rendering contains only digit characters, never the path
separator. -/
theorem mem_decChars_ne_slash {n : Nat} {c : Char} (hc : c ∈ decChars n) :
    c ≠ '/' := by
  unfold decChars at hc
  by_cases h : n = 0
  · rw [if_pos h] at hc
    simp only [List.mem_singleton] at hc
    subst hc
    decide
  · rw [if_neg h, List.mem_reverse, List.mem_map] at hc
    obtain ⟨d, hd, rfl⟩ := hc
    have h10 : d < 10 := Nat.digits_lt_base (by norm_num) hd
    interval_cases d <;> decide

/-- Decoding a decimal rendering recovers the number. -/
theorem undec_decChars (n : Nat) : undecChars (decChars n) = n := by
  unfold decChars
  by_cases h : n = 0
  · rw [if_pos h, h]
    decide
  · rw [if_neg h]
    unfold undecChars
    rw [List.map_reverse, List.reverse_reverse, List.map_map]
    have hmap : (Nat.digits 10 n).map ((fun c => c.toNat - 48) ∘ digitChar) =
        (Nat.digits 10 n).map id :=
      List.map_congr_left fun d hd => by
        have h10 : d < 10 := Nat.digits_lt_base (by norm_num) hd
        simp only [Function.comp_apply, id_eq]
        interval_cases d <;> decide
    rw [hmap, List.map_id, Nat.ofDigits_digits]

/-- Canonical decimal rendering is injective. -/
theorem decChars_inj {m n : Nat} (h : decChars m = decChars n) : m = n := by
  have h2 := congrArg undecChars h
  rwa [undec_decChars, undec_decChars] at h2

/-- A list equation `a ++ '/' :: r = a' ++ '/' :: r'` with slash-free `a`,
`a'` forces the segments to agree: the first separator is at a unique
position. -/
theorem append_slash_inj {a r : List Char} :
    ∀ {a' r' : List Char}, (∀ c ∈ a, c ≠ '/') → (∀ c ∈ a', c ≠ '/') →
      a ++ '/' :: r = a' ++ '/' :: r' → a = a' ∧ r = r' := by
  induction a with
  | nil =>
    intro a' r' _ ha' h
    cases a' with
    | nil => simpa using h
    | cons c t =>
      rw [List.nil_append, List.cons_append, List.cons.injEq] at h
      exact absurd h.1.symm (ha' c (List.mem_cons_self c t))
  | cons c t ih =>
    intro a' r' ha ha' h
    cases a' with
    | nil =>
      rw [List.cons_append, List.nil_append, List.cons.injEq] at h
      exact absurd h.1 (ha c (List.mem_cons_self c t))
    | cons c' t' =>
      rw [List.cons_append, List.cons_append, List.cons.injEq] at h
      obtain ⟨e1, e2⟩ := ih (fun b hb => ha b (List.mem_cons_of_mem c hb))
        (fun b hb => ha' b (List.mem_cons_of_mem c' hb)) h.2
      rw [h.1, e1, e2]
      exact ⟨rfl, rfl⟩

/-- The path formatter is injective: distinct destination keys give distinct
`out/<z>/<dx>/<dy>.avif` character lists. -/
theorem destPathChars_inj {d1 d2 : Dest}
    (h : destPathChars d1 = destPathChars d2) : d1 = d2 := by
  obtain ⟨z, dx, dy⟩ := d1
  obtain ⟨z', dx', dy'⟩ := d2
  unfold destPathChars at h
  rw [List.append_assoc, List.append_assoc] at h
  have h0 := List.append_cancel_left h
  obtain ⟨e1, h1⟩ := append_slash_inj (fun c hc => mem_decChars_ne_slash hc)
    (fun c hc => mem_decChars_ne_slash hc) h0
  obtain ⟨e2, h2⟩ := append_slash_inj (fun c hc => mem_decChars_ne_slash hc)
    (fun c hc => mem_decChars_ne_slash hc) h1
  have e3 := List.append_cancel_right h2
  rw [Dest.mk.injEq]
  exact ⟨decChars_inj e1, decChars_inj e2, decChars_inj e3⟩

/-- C7: any two distinct valid work items — two coarse quadrants, two fine
sub-tiles (of the same or of different cells and depths), or one of each —
compute different output paths, so no two parallel units ever race on one
file and completion order cannot affect the final file set.  Coarse zooms
stay below 5 while fine zooms are `9 - nz ≥ 5`, and within a zoom the
`dx = cx * tiles + tx` Euclidean encoding is injective. -/
theorem c7_distinct_paths (i1 i2 : WorkItem) (h1 : i1.valid) (h2 : i2.valid)
    (hne : i1 ≠ i2) : destPath i1.dest ≠ destPath i2.dest := by
  intro hp
  have hchars : destPathChars i1.dest = destPathChars i2.dest :=
    congrArg String.data hp
  have hd := destPathChars_inj hchars
  apply hne
  cases i1 with
  | coarse z qx qy =>
    cases i2 with
    | coarse z' qx' qy' =>
      simp only [WorkItem.dest] at hd
      rw [Dest.mk.injEq] at hd
      rw [hd.1, hd.2.1, hd.2.2]
    | fine cx' cy' nz' ty' tx' =>
      exfalso
      simp only [WorkItem.dest, fineDest] at hd
      rw [Dest.mk.injEq] at hd
      obtain ⟨hz5, _, _⟩ := h1
      obtain ⟨_, _, hnz5, _, _⟩ := h2
      have := hd.1
      omega
  | fine cx cy nz ty tx =>
    cases i2 with
    | coarse z' qx' qy' =>
      exfalso
      simp only [WorkItem.dest, fineDest] at hd
      rw [Dest.mk.injEq] at hd
      obtain ⟨_, _, hnz5, _, _⟩ := h1
      obtain ⟨hz5, _, _⟩ := h2
      have := hd.1
      omega
    | fine cx' cy' nz' ty' tx' =>
      simp only [WorkItem.dest, fineDest] at hd
      rw [Dest.mk.injEq] at hd
      obtain ⟨hz, hdx, hdy⟩ := hd
      obtain ⟨_, _, hnz5, hty5, htx5⟩ := h1
      obtain ⟨_, _, hnz5', hty5', htx5'⟩ := h2
      have hnz : nz = nz' := by omega
      subst hnz
      have h4 : cx = cx' ∧ tx = tx' ∧ cy = cy' ∧ ty = ty' := by
        interval_cases nz <;>
          (simp only [tile_per_base, base_wh, tile_wh, Nat.reduceDiv,
            Nat.reducePow] at hdx hdy hty5 htx5 hty5' htx5' <;> omega)
      rw [h4.1, h4.2.1, h4.2.2.1, h4.2.2.2]

/-- C7 witness: the coarsest coarse quadrant and the first fine sub-tile of
cell `(0, 0)` write to different paths. -/
theorem c7_distinct_paths_witness :
    destPath (WorkItem.coarse 0 0 0).dest ≠
      destPath (WorkItem.fine 0 0 0 0 0).dest :=
  c7_distinct_paths (WorkItem.coarse 0 0 0) (WorkItem.fine 0 0 0 0 0)
    ⟨by decide, by decide, by decide⟩
    ⟨by decide, by decide, by decide, by decide, by decide⟩
    (by decide)

/-- C10 witness: coordinate `(100, 0)` lies outside the scan rectangle. -/
theorem c10_out_of_range_witness :
    ((100 : Int), (0 : Int)) ∉ xys.map (fun p => cellCoord p.1 p.2) ∧
    shrunkMap (updateLookup (fun _ => none) (100, 0) none) xys =
      shrunkMap (fun _ => none) xys ∧
    fineWritesAll (fun _ => false) (updateLookup (fun _ => none) (100, 0) none) =
      fineWritesAll (fun _ => false) (fun _ => none) :=
  c10_out_of_range (100, 0) (fun _ => none) none (fun _ => false) (by decide)

end Tiledir
